import Mathlib

/-!
# SupplySight — verification of the ingestion / merge / feature pipeline

Shallow embedding of the core of the repository:

* `services/census/client.py` — month-range expansion of `fetch_hs_imports`;
* `services/census/ingest_shrimp.py` — `clean`, `fetch_with_fallback` and the
  merge step of `run`;
* `services/census/feature_engineering.py` — the per-commodity-group feature
  computation `compute_group` and the group-by driver of `main`.

Modelling conventions:

* A dataframe is a `List Row`, one `Row` per dataframe row, in frame order.
* `MONTH` values are the fixed-width strings `"YYYY-MM"`, whose lexicographic
  order coincides with chronological order; a month is therefore modelled by
  its chronological index (a `Nat`), and commodity-code strings — compared and
  grouped only for order and identity — by distinct `Nat`s preserving their
  string order.
* The numeric columns after `pd.to_numeric(..., errors="coerce")` are
  `Option ℚ`: `none` models an absent or unparsable value (pandas `NaN`), and
  every arithmetic operation involving a `NaN` operand, or whose float result
  is non-finite (division by zero inside a quotient column), is modelled as
  `none`.
* `pandas.sort_values` is modelled as a *stable* sort by the given key, the
  reading the repository's own merge/dedup logic relies on (existing rows are
  concatenated before new rows precisely so that `keep="last"` prefers new
  rows after sorting).
* Exact rationals stand for floats; `std` values, which involve a square
  root, live in `ℝ` via `Real.sqrt` of the exactly-computed sample variance.
-/

namespace SupplySight

/-- One row of the fetched / canonical shrimp-imports table: the columns
`I_COMMODITY`, `I_COMMODITY_SDESC`, `GEN_VAL_MO`, `VES_WGT_MO`, `CNT_WGT_MO`,
`AIR_WGT_MO`, `MONTH` (see `FIELDS` in `ingest_shrimp.py` and the `MONTH`
column produced by `client.py`). -/
structure Row where
  commodity : Nat
  desc : Nat
  genVal : Option ℚ
  vesWgt : Option ℚ
  cntWgt : Option ℚ
  airWgt : Option ℚ
  month : Nat
  deriving DecidableEq

/-! ## Row-wise feature formulas (`feature_engineering.py`, `compute_group`)

`g["total_weight_mo"] = g["VES_WGT_MO"].fillna(0) + g["AIR_WGT_MO"].fillna(0)` -/

def totalWeight (r : Row) : ℚ :=
  r.vesWgt.getD 0 + r.airWgt.getD 0

/-- `np.where(g["total_weight_mo"] == 0, 0.0, g["AIR_WGT_MO"] / g["total_weight_mo"])`:
when the denominator is nonzero, a `NaN` numerator propagates to `NaN`. -/
def airShare (r : Row) : Option ℚ :=
  if totalWeight r = 0 then some 0
  else r.airWgt.map (fun a => a / totalWeight r)

/-- `np.where(g["VES_WGT_MO"] == 0, 0.0, g["CNT_WGT_MO"] / g["VES_WGT_MO"])`:
the guard `VES_WGT_MO == 0` is a comparison against the number `0`, which a
`NaN` vessel weight does not satisfy, so a missing vessel weight falls into
the division branch and yields `NaN`. -/
def containerRatio (r : Row) : Option ℚ :=
  if r.vesWgt = some 0 then some 0
  else
    match r.vesWgt, r.cntWgt with
    | some v, some c => some (c / v)
    | _, _ => none

/-- `np.where(g["total_weight_mo"] == 0, np.nan, g["GEN_VAL_MO"] / g["total_weight_mo"])` -/
def unitValuePerKg (r : Row) : Option ℚ :=
  if totalWeight r = 0 then none
  else r.genVal.map (fun v => v / totalWeight r)

/-! ## Keyed-list machinery: stable sort and keep-last dedup

`pandas.DataFrame.sort_values(key)` is modelled as a stable insertion sort by
the key, and `drop_duplicates(subset=[key], keep="last")` as a scan keeping,
for each key value, the occurrence at the latest position. -/

section KeyedLists

variable {α : Type} {κ : Type} [LinearOrder κ]

/-- Insert `x` into `l` before the first element whose key is `≥ key x`.
When `l` is sorted this preserves sortedness and, for equal keys, keeps
earlier-inserted elements earlier (stability). -/
def insertRow (key : α → κ) (x : α) : List α → List α
  | [] => [x]
  | y :: ys => if key x ≤ key y then x :: y :: ys else y :: insertRow key x ys

/-- Stable sort by a key: model of `sort_values`. -/
def sortByKey (key : α → κ) : List α → List α
  | [] => []
  | x :: xs => insertRow key x (sortByKey key xs)

/-- The list is ascending in the key (duplicates allowed). -/
abbrev SortedByKey (key : α → κ) (l : List α) : Prop :=
  l.Pairwise (fun a b => key a ≤ key b)

/-- `drop_duplicates(subset=[key], keep="last")`: keep each element whose key
does not occur again later in the list. -/
def dedupKeepLast [DecidableEq κ] (key : α → κ) : List α → List α
  | [] => []
  | x :: xs =>
    if key x ∈ xs.map key then dedupKeepLast key xs
    else x :: dedupKeepLast key xs

theorem insertRow_perm (key : α → κ) (x : α) (l : List α) :
    List.Perm (insertRow key x l) (x :: l) := by
  induction l with
  | nil => exact List.Perm.refl _
  | cons y ys ih =>
    by_cases h : key x ≤ key y
    · rw [insertRow, if_pos h]
    · rw [insertRow, if_neg h]
      exact (ih.cons y).trans (List.Perm.swap x y ys)

theorem sortByKey_perm (key : α → κ) (l : List α) :
    List.Perm (sortByKey key l) l := by
  induction l with
  | nil => exact List.Perm.refl _
  | cons x xs ih => exact (insertRow_perm key x (sortByKey key xs)).trans (ih.cons x)

theorem sorted_insertRow (key : α → κ) (x : α) {l : List α}
    (h : SortedByKey key l) : SortedByKey key (insertRow key x l) := by
  induction l with
  | nil => simp [insertRow, SortedByKey]
  | cons y ys ih =>
    rcases List.pairwise_cons.mp h with ⟨hy, hys⟩
    by_cases hxy : key x ≤ key y
    · rw [insertRow, if_pos hxy]
      refine List.pairwise_cons.mpr ⟨?_, h⟩
      intro b hb
      rcases List.mem_cons.mp hb with rfl | hb
      · exact hxy
      · exact le_trans hxy (hy _ hb)
    · rw [insertRow, if_neg hxy]
      refine List.pairwise_cons.mpr ⟨?_, ih hys⟩
      intro b hb
      rcases List.mem_cons.mp ((insertRow_perm key x ys).mem_iff.mp hb) with rfl | hb'
      · exact le_of_not_le hxy
      · exact hy _ hb'

theorem sortByKey_sorted (key : α → κ) (l : List α) :
    SortedByKey key (sortByKey key l) := by
  induction l with
  | nil => simp [sortByKey, SortedByKey]
  | cons x xs ih => exact sorted_insertRow key x ih

theorem insertRow_of_forall_le (key : α → κ) (x : α) {l : List α}
    (h : ∀ z ∈ l, key x ≤ key z) : insertRow key x l = x :: l := by
  cases l with
  | nil => rfl
  | cons y ys => rw [insertRow, if_pos (h y (by simp))]

theorem sortByKey_eq_self (key : α → κ) {l : List α}
    (h : SortedByKey key l) : sortByKey key l = l := by
  induction l with
  | nil => rfl
  | cons x xs ih =>
    rcases List.pairwise_cons.mp h with ⟨hx, hxs⟩
    rw [sortByKey, ih hxs, insertRow_of_forall_le key x hx]

theorem filter_insertRow (key : α → κ) (q : α → Bool) (x : α) {l : List α}
    (h : SortedByKey key l) :
    (insertRow key x l).filter q =
      if q x then insertRow key x (l.filter q) else l.filter q := by
  induction l with
  | nil => cases hq : q x <;> simp [insertRow, List.filter_cons, hq]
  | cons y ys ih =>
    rcases List.pairwise_cons.mp h with ⟨hy, hys⟩
    by_cases hxy : key x ≤ key y
    · rw [insertRow, if_pos hxy, List.filter_cons]
      cases hq : q x
      · simp [hq]
      · have hfil : ∀ z ∈ (y :: ys).filter q, key x ≤ key z := by
          intro z hz
          rcases List.mem_cons.mp (List.mem_of_mem_filter hz) with rfl | hz'
          · exact hxy
          · exact le_trans hxy (hy z hz')
        simp only [hq, if_true]
        rw [insertRow_of_forall_le key x hfil]
    · rw [insertRow, if_neg hxy, List.filter_cons, List.filter_cons]
      cases hq : q x <;> cases hqy : q y
      · simp [hq, hqy, ih hys]
      · simp [hq, hqy, ih hys]
      · simp [hq, hqy, ih hys]
      · simp only [hq, hqy, if_true]
        rw [insertRow, if_neg hxy]
        simp only [ih hys, hq, if_true]

theorem filter_sortByKey (key : α → κ) (q : α → Bool) (l : List α) :
    (sortByKey key l).filter q = sortByKey key (l.filter q) := by
  induction l with
  | nil => rfl
  | cons x xs ih =>
    rw [sortByKey, filter_insertRow key q x (sortByKey_sorted key xs),
      List.filter_cons]
    cases hq : q x
    · simp [hq, ih]
    · simp only [hq, if_true, sortByKey]
      rw [ih]

theorem sortByKey_of_const_key (key : α → κ) {l : List α} {p : κ}
    (h : ∀ a ∈ l, key a = p) : sortByKey key l = l := by
  apply sortByKey_eq_self
  refine List.pairwise_of_forall_mem_list ?_
  intro a ha b hb
  rw [h a ha, h b hb]

section Dedup

variable [DecidableEq κ]

theorem dedupKeepLast_sublist (key : α → κ) (l : List α) :
    (dedupKeepLast key l).Sublist l := by
  induction l with
  | nil => simp [dedupKeepLast]
  | cons x xs ih =>
    by_cases h : key x ∈ xs.map key
    · rw [dedupKeepLast, if_pos h]
      exact ih.cons x
    · rw [dedupKeepLast, if_neg h]
      exact ih.cons₂ x

theorem dedupKeepLast_sorted (key : α → κ) {l : List α}
    (h : SortedByKey key l) : SortedByKey key (dedupKeepLast key l) :=
  h.sublist (dedupKeepLast_sublist key l)

theorem dedupKeepLast_keys_nodup (key : α → κ) (l : List α) :
    ((dedupKeepLast key l).map key).Nodup := by
  induction l with
  | nil => simp [dedupKeepLast]
  | cons x xs ih =>
    by_cases h : key x ∈ xs.map key
    · simpa [dedupKeepLast, h] using ih
    · rw [dedupKeepLast, if_neg h]
      refine List.nodup_cons.mpr ⟨?_, ih⟩
      intro hmem
      exact h (List.map_subset key
        (List.Sublist.subset (dedupKeepLast_sublist key xs)) hmem)

theorem dedupKeepLast_eq_self (key : α → κ) {l : List α}
    (h : (l.map key).Nodup) : dedupKeepLast key l = l := by
  induction l with
  | nil => rfl
  | cons x xs ih =>
    rw [List.map_cons] at h
    rcases List.nodup_cons.mp h with ⟨hx, hxs⟩
    rw [dedupKeepLast, if_neg hx, ih hxs]

theorem filter_dedupKeepLast (key : α → κ) (p : κ) (l : List α) :
    (dedupKeepLast key l).filter (fun a => key a = p) =
      dedupKeepLast key (l.filter (fun a => key a = p)) := by
  induction l with
  | nil => rfl
  | cons x xs ih =>
    by_cases hxp : key x = p
    · by_cases hmem : key x ∈ xs.map key
      · have hmem' : key x ∈ (xs.filter (fun a => key a = p)).map key := by
          rcases List.mem_map.mp hmem with ⟨y, hy, hky⟩
          refine List.mem_map.mpr ⟨y, List.mem_filter.mpr ⟨hy, ?_⟩, hky⟩
          simp [hky, hxp]
        rw [dedupKeepLast, if_pos hmem, List.filter_cons,
          if_pos (by simp [hxp]), dedupKeepLast, if_pos hmem', ih]
      · have hmem' : key x ∉ (xs.filter (fun a => key a = p)).map key := by
          intro hc
          rcases List.mem_map.mp hc with ⟨y, hy, hky⟩
          exact hmem (List.mem_map.mpr ⟨y, List.mem_of_mem_filter hy, hky⟩)
        rw [dedupKeepLast, if_neg hmem, List.filter_cons, if_pos (by simp [hxp]),
          List.filter_cons, if_pos (by simp [hxp]), dedupKeepLast, if_neg hmem', ih]
    · by_cases hmem : key x ∈ xs.map key
      · rw [dedupKeepLast, if_pos hmem, List.filter_cons,
          if_neg (by simp [hxp]), ih]
      · rw [dedupKeepLast, if_neg hmem, List.filter_cons, if_neg (by simp [hxp]),
          List.filter_cons, if_neg (by simp [hxp]), ih]

theorem dedupKeepLast_const_key (key : α → κ) {l : List α} {p : κ}
    (h : ∀ a ∈ l, key a = p) : dedupKeepLast key l = l.getLast?.toList := by
  induction l with
  | nil => rfl
  | cons x xs ih =>
    cases xs with
    | nil => simp [dedupKeepLast]
    | cons y ys =>
      have hx : key x ∈ ((y :: ys).map key) := by
        rw [List.map_cons]
        exact List.mem_cons.mpr
          (Or.inl ((h x (by simp)).trans (h y (by simp)).symm))
      rw [dedupKeepLast, if_pos hx, ih (fun a ha => h a (by simp [ha]))]
      rw [List.getLast?_cons_cons]

/-- The composite `sort_values(key)` then `drop_duplicates(subset=[key],
keep="last")`, as used by both `clean` and the merge step of `run`. -/
def mergeCore (key : α → κ) (l : List α) : List α :=
  dedupKeepLast key (sortByKey key l)

/-- Per-key content of `mergeCore`: for every key value, the output retains
exactly the last input occurrence of that key (in input encounter order). -/
theorem mergeCore_filter_key (key : α → κ) (l : List α) (p : κ) :
    (mergeCore key l).filter (fun a => key a = p) =
      ((l.filter (fun a => key a = p)).getLast?).toList := by
  have hall0 : ∀ a ∈ l.filter (fun a => decide (key a = p)), key a = p := by
    intro a ha
    simpa using (List.mem_filter.mp ha).2
  have hall : ∀ a ∈ sortByKey key (l.filter (fun a => decide (key a = p))),
      key a = p := fun a ha => hall0 a ((sortByKey_perm key _).mem_iff.mp ha)
  rw [mergeCore, filter_dedupKeepLast, filter_sortByKey,
    dedupKeepLast_const_key key hall, sortByKey_of_const_key key hall0]

theorem mergeCore_sorted (key : α → κ) (l : List α) :
    SortedByKey key (mergeCore key l) :=
  dedupKeepLast_sorted key (sortByKey_sorted key l)

theorem mergeCore_keys_nodup (key : α → κ) (l : List α) :
    ((mergeCore key l).map key).Nodup :=
  dedupKeepLast_keys_nodup key _

/-- Extensionality for key-sorted, key-unique lists: equal per-key filters
force equal lists. -/
theorem eq_of_sorted_keys_nodup (key : α → κ) : ∀ {s t : List α},
    SortedByKey key s → SortedByKey key t →
    (s.map key).Nodup → (t.map key).Nodup →
    (∀ p, s.filter (fun a => key a = p) = t.filter (fun a => key a = p)) →
    s = t := by
  intro s
  induction s with
  | nil =>
    intro t _ _ _ _ h
    cases t with
    | nil => rfl
    | cons b t' =>
      have hb := h (key b)
      rw [List.filter_nil, List.filter_cons, if_pos (by simp)] at hb
      exact absurd hb.symm (by simp)
  | cons a s' ih =>
    intro t hs ht hns hnt h
    cases t with
    | nil =>
      have ha := h (key a)
      rw [List.filter_nil, List.filter_cons, if_pos (by simp)] at ha
      exact absurd ha (by simp)
    | cons b t' =>
      rcases List.pairwise_cons.mp hs with ⟨hsa, hs'⟩
      rcases List.pairwise_cons.mp ht with ⟨htb, ht'⟩
      rw [List.map_cons] at hns hnt
      rcases List.nodup_cons.mp hns with ⟨hna, hns'⟩
      rcases List.nodup_cons.mp hnt with ⟨hnb, hnt'⟩
      have hfs : s'.filter (fun x => key x = key a) = [] := by
        apply List.filter_eq_nil_iff.mpr
        intro x hx hc
        exact hna (List.mem_map.mpr ⟨x, hx, of_decide_eq_true hc⟩)
      have hft : t'.filter (fun x => key x = key b) = [] := by
        apply List.filter_eq_nil_iff.mpr
        intro x hx hc
        exact hnb (List.mem_map.mpr ⟨x, hx, of_decide_eq_true hc⟩)
      have hkey : key a = key b := by
        by_contra hk
        have h1 := h (key a)
        rw [List.filter_cons, if_pos (by simp), hfs, List.filter_cons,
          if_neg (by simpa using fun hc => hk hc.symm)] at h1
        have ha_t' : a ∈ t' := by
          have hmem : a ∈ t'.filter (fun x => key x = key a) := by
            rw [← h1]; simp
          exact List.mem_of_mem_filter hmem
        have h2 := h (key b)
        rw [List.filter_cons, if_neg (by simpa using hk), List.filter_cons,
          if_pos (by simp), hft] at h2
        have hb_s' : b ∈ s' := by
          have hmem : b ∈ s'.filter (fun x => key x = key b) := by
            rw [h2]; simp
          exact List.mem_of_mem_filter hmem
        exact hk (le_antisymm (hsa b hb_s') (htb a ha_t'))
      have hab : a = b := by
        have h1 := h (key a)
        rw [List.filter_cons, if_pos (by simp), hfs, List.filter_cons,
          if_pos (by simp [hkey]), hkey, hft] at h1
        simpa using h1
      subst hab
      have htail : ∀ p, s'.filter (fun x => key x = p) =
          t'.filter (fun x => key x = p) := by
        intro p
        by_cases hp : key a = p
        · subst hp
          rw [hfs, hft]
        · have hh := h p
          rwa [List.filter_cons, if_neg (by simpa using hp),
            List.filter_cons, if_neg (by simpa using hp)] at hh
      exact congrArg (a :: ·) (ih hs' ht' hns' hnt' htail)

theorem getLast?_toList (o : Option α) : (o.toList).getLast? = o := by
  cases o <;> rfl

theorem getLast?_toList_append (l m : List α) :
    ((l.getLast?.toList) ++ m).getLast? = (l ++ m).getLast? := by
  by_cases hm : m = []
  · subst hm
    rw [List.append_nil, List.append_nil, getLast?_toList]
  · rw [List.getLast?_append_of_ne_nil _ hm, List.getLast?_append_of_ne_nil _ hm]

theorem getLast?_append_self (l m : List α) :
    (l ++ m ++ m).getLast? = (l ++ m).getLast? := by
  by_cases hm : m = []
  · subst hm
    rw [List.append_nil, List.append_nil]
  · rw [List.getLast?_append_of_ne_nil _ hm, List.getLast?_append_of_ne_nil _ hm]

/-- Merging an already-merged table with the same window again changes
nothing: the keep-last dedup collapses the exact repeats back to the rows the
first merge kept. -/
theorem mergeCore_reingest (key : α → κ) (e c : List α) :
    mergeCore key (mergeCore key (e ++ c) ++ c) = mergeCore key (e ++ c) := by
  apply eq_of_sorted_keys_nodup key (mergeCore_sorted key _) (mergeCore_sorted key _)
    (mergeCore_keys_nodup key _) (mergeCore_keys_nodup key _)
  intro p
  rw [mergeCore_filter_key, mergeCore_filter_key, List.filter_append,
    mergeCore_filter_key,
    show ((e ++ c).filter (fun a => decide (key a = p))) =
        e.filter (fun a => decide (key a = p)) ++ c.filter (fun a => decide (key a = p))
      from List.filter_append e c,
    getLast?_toList_append, getLast?_append_self]

end Dedup

end KeyedLists

/-! ## The Cleaner and the Incremental Merger (`ingest_shrimp.py`) -/

/-- The dedup key of both `clean` and the merge: the `MONTH` column alone. -/
def monthKey (r : Row) : Nat := r.month

/-- `clean` (`ingest_shrimp.py` lines 35–46): type coercion is implicit in the
`Row` model (`none` = unparsable/absent after `to_numeric(errors="coerce")`);
then `dropna(subset=["GEN_VAL_MO"])`, `sort_values("MONTH")`,
`drop_duplicates(subset=["MONTH"], keep="last")`. -/
def clean (raw : List Row) : List Row :=
  mergeCore monthKey (raw.filter (fun r => r.genVal.isSome))

/-- The merge step of `run` (`ingest_shrimp.py` lines 91–93):
`pd.concat([df_existing, df_clean_new])`, `sort_values("MONTH")`,
`drop_duplicates(subset=["MONTH"], keep="last")`. -/
def mergeTables (existing newWindow : List Row) : List Row :=
  mergeCore monthKey (existing ++ newWindow)

/-- **C2.** Merging a canonical table that is already the output of a merge
(sorted ascending by period, deduplicated by the merge key) with an empty new
window yields the very same table, row for row and in the same order. -/
theorem merge_empty_window_identity (t : List Row)
    (hs : SortedByKey monthKey t) (hn : (t.map monthKey).Nodup) :
    mergeTables t [] = t := by
  rw [mergeTables, List.append_nil, mergeCore,
    sortByKey_eq_self monthKey hs, dedupKeepLast_eq_self monthKey hn]

/-- Witness for `merge_empty_window_identity`: a concrete sorted,
month-unique two-row table merged with an empty window. -/
theorem merge_empty_window_identity_witness :
    mergeTables [⟨10, 0, some 5, none, none, none, 1⟩,
                 ⟨10, 0, some 6, none, none, none, 2⟩] [] =
      [⟨10, 0, some 5, none, none, none, 1⟩,
       ⟨10, 0, some 6, none, none, none, 2⟩] :=
  merge_empty_window_identity _ (by decide) (by decide)

/-- The Incremental Merger as the claim words it: concatenate existing rows
then new rows, sort ascending by period, deduplicate by the *pair*
`(commodity_code, month)` keeping the last occurrence. Written from the
claim's text for comparison against the source's `mergeTables`, whose
`drop_duplicates` call lists only `MONTH` in `subset`. -/
def mergeTablesPairSpec (existing newWindow : List Row) : List Row :=
  dedupKeepLast (fun r => (r.commodity, r.month))
    (sortByKey monthKey (existing ++ newWindow))

/-- **C1 counterexample.** Two rows with different commodity codes but the
same month: the source's merge keeps only the new row (dedup key is `MONTH`
alone), while the claimed pair-keyed dedup would keep both. -/
theorem merge_dedup_pair_counterexample :
    mergeTables [⟨1, 0, some 5, none, none, none, 7⟩]
        [⟨2, 0, some 6, none, none, none, 7⟩] ≠
      mergeTablesPairSpec [⟨1, 0, some 5, none, none, none, 7⟩]
        [⟨2, 0, some 6, none, none, none, 7⟩] := by
  decide

/-- **C1 (amended).** The Incremental Merger concatenates existing rows then
new rows, sorts ascending by period, and deduplicates by *month alone* (not
by the pair `(commodity_code, month)`) keeping the last occurrence: the
merged table is ascending in month with pairwise-distinct months, for every
month it retains exactly the last row carrying that month in
`existing ++ new`, and so on any month present in the new window the new
window's row replaces the old one — regardless of commodity code. -/
theorem merge_dedup_by_month_new_wins (existing newWindow : List Row) :
    SortedByKey monthKey (mergeTables existing newWindow) ∧
    ((mergeTables existing newWindow).map monthKey).Nodup ∧
    (∀ p, (mergeTables existing newWindow).filter (fun r => monthKey r = p) =
      (((existing ++ newWindow).filter (fun r => monthKey r = p)).getLast?).toList) ∧
    (∀ p, newWindow.filter (fun r => monthKey r = p) ≠ [] →
      (mergeTables existing newWindow).filter (fun r => monthKey r = p) =
        ((newWindow.filter (fun r => monthKey r = p)).getLast?).toList) := by
  refine ⟨mergeCore_sorted monthKey _, mergeCore_keys_nodup monthKey _,
    fun p => mergeCore_filter_key monthKey _ p, fun p hne => ?_⟩
  rw [mergeTables, mergeCore_filter_key, List.filter_append,
    List.getLast?_append_of_ne_nil _ hne]

/-- Witness for `merge_dedup_by_month_new_wins`: an existing commodity-1 row
for month 7 is replaced by the new window's commodity-2 row for month 7. -/
theorem merge_dedup_by_month_new_wins_witness :
    (mergeTables [⟨1, 0, some 5, none, none, none, 7⟩]
        [⟨2, 0, some 6, none, none, none, 7⟩]).filter (fun r => monthKey r = 7) =
      (([⟨2, 0, some 6, none, none, none, 7⟩].filter
          (fun r => monthKey r = 7)).getLast?).toList :=
  (merge_dedup_by_month_new_wins [⟨1, 0, some 5, none, none, none, 7⟩]
    [⟨2, 0, some 6, none, none, none, 7⟩]).2.2.2 7 (by decide)

/-- **C3.** Running clean-then-merge twice in succession on the same fetched
window produces the same canonical table as running it once: the second
run's keep-last dedup by period collapses the exact repeats. -/
theorem reingest_convergence (existing rawWindow : List Row) :
    mergeTables (mergeTables existing (clean rawWindow)) (clean rawWindow) =
      mergeTables existing (clean rawWindow) := by
  rw [mergeTables, mergeTables]
  exact mergeCore_reingest monthKey existing (clean rawWindow)

/-- **C5.** The Cleaner's output has no row with a missing primary value
(`GEN_VAL_MO`), no two rows with the same period, is ascending in period,
and for each period keeps the row occurring last in input encounter order
among that period's value-bearing rows (rows with an absent/unparsable
primary value having been dropped first). -/
theorem clean_guarantees (raw : List Row) :
    (∀ r ∈ clean raw, r.genVal.isSome) ∧
    SortedByKey monthKey (clean raw) ∧
    ((clean raw).map monthKey).Nodup ∧
    (∀ p, (clean raw).filter (fun r => monthKey r = p) =
      (((raw.filter (fun r => r.genVal.isSome)).filter
          (fun r => monthKey r = p)).getLast?).toList) := by
  refine ⟨?_, mergeCore_sorted monthKey _, mergeCore_keys_nodup monthKey _,
    fun p => mergeCore_filter_key monthKey _ p⟩
  intro r hr
  have hr1 : r ∈ sortByKey monthKey (raw.filter (fun r => r.genVal.isSome)) :=
    (dedupKeepLast_sublist monthKey _).subset hr
  have hr2 : r ∈ raw.filter (fun r => r.genVal.isSome) :=
    (sortByKey_perm monthKey _).mem_iff.mp hr1
  exact (List.mem_filter.mp hr2).2

/-- Witness for `clean_guarantees`: the spec's Clean scenario — months
2, 3, 3 where the middle row's value is unparsable — keeping the last
value-bearing March row. -/
theorem clean_guarantees_witness :
    (clean [⟨1, 0, some 1000, none, none, none, 2⟩,
            ⟨1, 0, none, none, none, none, 3⟩,
            ⟨1, 0, some 2000, none, none, none, 3⟩]).filter
        (fun r => monthKey r = 3) =
      ((([⟨1, 0, some 1000, none, none, none, 2⟩,
          ⟨1, 0, none, none, none, none, 3⟩,
          ⟨1, 0, some 2000, none, none, none, 3⟩].filter
            (fun r => r.genVal.isSome)).filter
          (fun r => monthKey r = 3)).getLast?).toList :=
  (clean_guarantees _).2.2.2 3

/-- **C4.** For every input row of the Feature Engine, `air_share` is exactly
`0` when `total_weight_mo` is `0`, `container_ratio` is exactly `0` when
`VES_WGT_MO` is `0`, and `unit_value_per_kg` is missing (not `0`) when
`total_weight_mo` is `0`; otherwise each equals the corresponding quotient. -/
theorem safe_division_policy (r : Row) :
    (totalWeight r = 0 → airShare r = some 0) ∧
    (r.vesWgt = some 0 → containerRatio r = some 0) ∧
    (totalWeight r = 0 → unitValuePerKg r = none) ∧
    (totalWeight r ≠ 0 → airShare r = r.airWgt.map (fun a => a / totalWeight r)) ∧
    (∀ v : ℚ, r.vesWgt = some v → v ≠ 0 →
      containerRatio r = r.cntWgt.map (fun c => c / v)) ∧
    (totalWeight r ≠ 0 → unitValuePerKg r = r.genVal.map (fun v => v / totalWeight r)) := by
  refine ⟨fun h => by simp [airShare, h], fun h => by simp [containerRatio, h],
    fun h => by simp [unitValuePerKg, h], fun h => by simp [airShare, h],
    fun v hv hv0 => ?_, fun h => by simp [unitValuePerKg, h]⟩
  · cases hc : r.cntWgt <;> simp [containerRatio, hv, hv0, hc]

/-- Witness for `safe_division_policy` at a concrete row: zero total weight,
vessel weight zero. -/
theorem safe_division_policy_witness :
    airShare { commodity := 1, desc := 0, genVal := some 7, vesWgt := some 0,
               cntWgt := some 3, airWgt := some 0, month := 5 } = some 0 :=
  (safe_division_policy _).1 (by simp [totalWeight])

/-- **C10.** When `VES_WGT_MO` is missing (as opposed to present and equal to
`0`), `container_ratio` is missing (`NaN`), not `0`: the zero-denominator
guard compares only against `0`, and a missing vessel weight is not treated
as `0` in this division. -/
theorem container_ratio_nan_when_vessel_missing (r : Row) (h : r.vesWgt = none) :
    containerRatio r = none ∧ containerRatio r ≠ some 0 := by
  have hne : ¬ r.vesWgt = some 0 := by simp [h]
  constructor
  · cases hc : r.cntWgt <;> simp [containerRatio, hne, h, hc]
  · cases hc : r.cntWgt <;> simp [containerRatio, hne, h, hc]

/-- Witness for `container_ratio_nan_when_vessel_missing` at a concrete row
with an absent vessel weight but a present container weight. -/
theorem container_ratio_nan_when_vessel_missing_witness :
    containerRatio { commodity := 1, desc := 0, genVal := some 7, vesWgt := none,
                     cntWgt := some 3, airWgt := some 2, month := 5 } = none :=
  (container_ratio_nan_when_vessel_missing _ (by decide)).1

/-! ## The Query Builder & Fetcher (`client.py`): month-range expansion

`fetch_hs_imports` builds `years_months` with
`while (current_year, current_month) <= (to_year, to_month)` — Python tuple
comparison is lexicographic — appending `(current_year, current_month)` and
stepping `current_month += 1; if current_month > 12: current_month = 1;
current_year += 1`. -/

/-- The `while` loop of the month-range expansion, with explicit fuel
bounding the finitely many iterations. -/
def monthRangeLoop (ty tm : Nat) : Nat → Nat → Nat → List (Nat × Nat)
  | 0, _, _ => []
  | fuel + 1, cy, cm =>
    if cy < ty ∨ (cy = ty ∧ cm ≤ tm) then
      (cy, cm) ::
        (if cm + 1 > 12 then monthRangeLoop ty tm fuel (cy + 1) 1
         else monthRangeLoop ty tm fuel cy (cm + 1))
    else []

/-- `years_months` as built by `fetch_hs_imports` for the inclusive range
`(fy, fm)` … `(ty, tm)`. The fuel dominates the loop's iteration count. -/
def monthRange (fy fm ty tm : Nat) : List (Nat × Nat) :=
  monthRangeLoop ty tm (12 * (ty + 1)) fy fm

/-- Chronological index of the calendar month `(y, m)`, months numbered
1–12: month `m` of year `y` is the `12 * y + m`-th month of the era. -/
def monthIdx (ym : Nat × Nat) : Nat := 12 * ym.1 + ym.2

/-- The calendar month with chronological index `n ≥ 1`. -/
def ymOfIdx (n : Nat) : Nat × Nat := ((n - 1) / 12, (n - 1) % 12 + 1)

/-- The calendar month immediately after `ym`, with year rollover. -/
def nextMonth (ym : Nat × Nat) : Nat × Nat :=
  if ym.2 ≥ 12 then (ym.1 + 1, 1) else (ym.1, ym.2 + 1)

theorem ymOfIdx_monthIdx {y m : Nat} (h1 : 1 ≤ m) (h2 : m ≤ 12) :
    ymOfIdx (monthIdx (y, m)) = (y, m) := by
  unfold ymOfIdx monthIdx
  simp only [Prod.mk.injEq]
  omega

theorem ymOfIdx_succ {n : Nat} (hn : 1 ≤ n) :
    ymOfIdx (n + 1) = nextMonth (ymOfIdx n) := by
  unfold ymOfIdx nextMonth
  by_cases hr : (n - 1) % 12 + 1 ≥ 12
  · rw [if_pos hr]
    simp only [Prod.mk.injEq]
    omega
  · rw [if_neg hr]
    simp only [Prod.mk.injEq]
    omega

theorem monthRangeLoop_eq (ty tm : Nat) (htm1 : 1 ≤ tm) (htm2 : tm ≤ 12) :
    ∀ (fuel cy cm : Nat), 1 ≤ cm → cm ≤ 12 →
      monthIdx (ty, tm) + 1 - monthIdx (cy, cm) ≤ fuel →
      monthRangeLoop ty tm fuel cy cm =
        (List.range (monthIdx (ty, tm) + 1 - monthIdx (cy, cm))).map
          (fun k => ymOfIdx (monthIdx (cy, cm) + k)) := by
  intro fuel
  induction fuel with
  | zero =>
    intro cy cm h1 h2 hb
    rw [Nat.le_zero.mp hb]
    rfl
  | succ fuel ih =>
    intro cy cm h1 h2 hb
    by_cases hcond : cy < ty ∨ (cy = ty ∧ cm ≤ tm)
    · obtain ⟨d, hd⟩ : ∃ d, monthIdx (ty, tm) + 1 - monthIdx (cy, cm) = d + 1 := by
        refine ⟨monthIdx (ty, tm) - monthIdx (cy, cm), ?_⟩
        simp only [monthIdx] at *
        omega
      rw [monthRangeLoop, if_pos hcond, hd, List.range_succ_eq_map,
        List.map_cons, List.map_map]
      simp only [Function.comp_def, Nat.succ_eq_add_one, Nat.add_zero]
      rw [ymOfIdx_monthIdx h1 h2]
      by_cases hcm : cm + 1 > 12
      · have hstep : monthIdx (cy + 1, 1) = monthIdx (cy, cm) + 1 := by
          simp only [monthIdx]
          omega
        have hbound : monthIdx (ty, tm) + 1 - monthIdx (cy + 1, 1) ≤ fuel := by
          simp only [monthIdx] at *
          omega
        rw [if_pos hcm, ih (cy + 1) 1 (by omega) (by omega) hbound, hstep]
        have hlen : monthIdx (ty, tm) + 1 - (monthIdx (cy, cm) + 1) = d := by
          simp only [monthIdx] at *
          omega
        rw [hlen]
        refine congrArg _ (List.map_congr_left ?_)
        intro k _
        have harg : monthIdx (cy, cm) + 1 + k = monthIdx (cy, cm) + (k + 1) := by
          omega
        rw [harg]
      · have hstep : monthIdx (cy, cm + 1) = monthIdx (cy, cm) + 1 := by
          simp only [monthIdx]
          omega
        have hbound : monthIdx (ty, tm) + 1 - monthIdx (cy, cm + 1) ≤ fuel := by
          simp only [monthIdx] at *
          omega
        rw [if_neg hcm, ih cy (cm + 1) (by omega) (by omega) hbound, hstep]
        have hlen : monthIdx (ty, tm) + 1 - (monthIdx (cy, cm) + 1) = d := by
          simp only [monthIdx] at *
          omega
        rw [hlen]
        refine congrArg _ (List.map_congr_left ?_)
        intro k _
        have harg : monthIdx (cy, cm) + 1 + k = monthIdx (cy, cm) + (k + 1) := by
          omega
        rw [harg]
    · have hz : monthIdx (ty, tm) + 1 - monthIdx (cy, cm) = 0 := by
        simp only [monthIdx] at *
        omega
      rw [monthRangeLoop, if_neg hcond, hz]
      rfl

/-- **C7.** For every pair of months start ≤ end (with month components in
1–12), the Fetcher's month-range expansion is exactly the chronological list
of `(year, month)` pairs from start to end inclusive: it is the list of
consecutive chronological month indices, it starts at the start month, ends
at the end month, and every consecutive pair steps by `nextMonth`, which
rolls month 12 of year `Y` over to month 1 of year `Y+1`. -/
theorem monthRange_expansion (fy fm ty tm : Nat)
    (hfm1 : 1 ≤ fm) (hfm2 : fm ≤ 12) (htm1 : 1 ≤ tm) (htm2 : tm ≤ 12)
    (hle : fy < ty ∨ (fy = ty ∧ fm ≤ tm)) :
    monthRange fy fm ty tm =
      (List.range (monthIdx (ty, tm) + 1 - monthIdx (fy, fm))).map
        (fun k => ymOfIdx (monthIdx (fy, fm) + k)) ∧
    (monthRange fy fm ty tm).head? = some (fy, fm) ∧
    (monthRange fy fm ty tm).getLast? = some (ty, tm) ∧
    List.Chain' (fun a b => b = nextMonth a) (monthRange fy fm ty tm) := by
  have hmain : monthRange fy fm ty tm =
      (List.range (monthIdx (ty, tm) + 1 - monthIdx (fy, fm))).map
        (fun k => ymOfIdx (monthIdx (fy, fm) + k)) := by
    apply monthRangeLoop_eq ty tm htm1 htm2 _ fy fm hfm1 hfm2
    simp only [monthIdx]
    omega
  obtain ⟨d, hd⟩ : ∃ d, monthIdx (ty, tm) + 1 - monthIdx (fy, fm) = d + 1 := by
    refine ⟨monthIdx (ty, tm) - monthIdx (fy, fm), ?_⟩
    simp only [monthIdx] at *
    omega
  refine ⟨hmain, ?_, ?_, ?_⟩
  · rw [hmain, hd, List.range_succ_eq_map, List.map_cons, Nat.add_zero,
      ymOfIdx_monthIdx hfm1 hfm2, List.head?_cons]
  · rw [hmain, hd, List.range_succ, List.map_append, List.map_cons,
      List.map_nil, List.getLast?_concat]
    have harg : monthIdx (fy, fm) + d = monthIdx (ty, tm) := by
      simp only [monthIdx] at *
      omega
    rw [harg, ymOfIdx_monthIdx htm1 htm2]
  · rw [hmain]
    rw [List.chain'_map]
    rw [hd]
    apply (List.chain'_range_succ _ _).mpr
    intro i hi
    have harg : monthIdx (fy, fm) + (i + 1) = (monthIdx (fy, fm) + i) + 1 := by
      omega
    rw [harg]
    apply ymOfIdx_succ
    simp only [monthIdx]
    omega

/-- Witness for `monthRange_expansion`: November 2018 through February 2019,
crossing a year boundary. -/
theorem monthRange_expansion_witness :
    monthRange 2018 11 2019 2 = [(2018, 11), (2018, 12), (2019, 1), (2019, 2)] := by
  rw [(monthRange_expansion 2018 11 2019 2 (by decide) (by decide) (by decide)
    (by decide) (Or.inl (by decide))).1]
  decide

/-! ## The Fallback Fetch Strategy (`ingest_shrimp.py`, `fetch_with_fallback`)

```
last_exc = None
for hs in ["0306170000", "030617"]:
    try:
        df = fetch_hs_imports(q, api_key=api_key)
        if len(df) > 0:
            return df
    except Exception as e:
        last_exc = e
        continue
raise CensusError(f"Failed to fetch shrimp imports. Last error: {last_exc}")
```

One Fetcher attempt is `Except ε (List α)`; the final `raise` carries
`last_exc`, modelled as `.error last` with `last = none` exactly when no
candidate raised (`last_exc is None`, the only-empty-results case). -/

/-- A candidate that cannot be returned: its attempt raised, or succeeded
with zero rows. -/
def failsOrEmpty {ε α : Type} (fetch : String → Except ε (List α)) (c : String) : Bool :=
  match fetch c with
  | .error _ => true
  | .ok rows => rows.isEmpty

/-- The candidate loop: return the first non-empty result; record a raised
error in `last_exc` and continue; an empty success leaves `last_exc`
untouched. -/
def fetchWithFallbackLoop {ε α : Type} (fetch : String → Except ε (List α)) :
    List String → Option ε → Except (Option ε) (List α)
  | [], last => .error last
  | c :: cs, last =>
    match fetch c with
    | .ok rows =>
      if rows.isEmpty then fetchWithFallbackLoop fetch cs last else .ok rows
    | .error e => fetchWithFallbackLoop fetch cs (some e)

/-- `fetch_with_fallback`, generic in the candidate list (`run` instantiates
it with `shrimpCandidates`). -/
def fetch_with_fallback {ε α : Type} (fetch : String → Except ε (List α))
    (candidates : List String) : Except (Option ε) (List α) :=
  fetchWithFallbackLoop fetch candidates none

/-- The HS-code candidates tried by the shrimp ingestion, most specific
(10-digit) first. -/
def shrimpCandidates : List String := ["0306170000", "030617"]

/-- The error of one attempt, if it raised. -/
def errOf {ε α : Type} (fetch : String → Except ε (List α)) (c : String) : Option ε :=
  match fetch c with
  | .error e => some e
  | .ok _ => none

/-- The last underlying failure over a candidate list (`none` when no
candidate raised). -/
def lastError {ε α : Type} (fetch : String → Except ε (List α))
    (cs : List String) : Option ε :=
  (cs.filterMap (errOf fetch)).getLast?

theorem or_getLast?_cons {ε : Type} (e : ε) (L : List ε) (last : Option ε) :
    (((e :: L).getLast?).or last) = ((L.getLast?).or (some e)) := by
  cases L with
  | nil => rfl
  | cons y L' =>
    rw [List.getLast?_cons_cons]
    have hsome : (y :: L').getLast?.isSome :=
      List.getLast?_isSome.mpr (by simp)
    obtain ⟨v, hv⟩ := Option.isSome_iff_exists.mp hsome
    rw [hv]
    rfl

theorem fetchWithFallbackLoop_all_fail {ε α : Type}
    (fetch : String → Except ε (List α)) :
    ∀ (cands : List String) (last : Option ε),
      (∀ c' ∈ cands, failsOrEmpty fetch c' = true) →
      fetchWithFallbackLoop fetch cands last =
        .error (((cands.filterMap (errOf fetch)).getLast?).or last) := by
  intro cands
  induction cands with
  | nil => intro last _; rfl
  | cons c cs ih =>
    intro last hall
    have hc := hall c (by simp)
    unfold failsOrEmpty at hc
    rw [fetchWithFallbackLoop]
    cases hfc : fetch c with
    | ok rows =>
      rw [hfc] at hc
      have herr : errOf fetch c = none := by unfold errOf; rw [hfc]
      simp only [hfc]
      rw [if_pos hc, List.filterMap_cons_none herr]
      exact ih last (fun c' hc' => hall c' (by simp [hc']))
    | error e =>
      have herr : errOf fetch c = some e := by unfold errOf; rw [hfc]
      simp only [hfc]
      rw [List.filterMap_cons_some herr,
        ih (some e) (fun c' hc' => hall c' (by simp [hc'])),
        or_getLast?_cons]

/-- **C8.** The fallback fetch attempts each candidate in order and returns
the first fetch result with at least one row — an error on an earlier
candidate does not prevent later candidates from being tried; if every
candidate yields zero rows or raises, it fails with an aggregated error
referencing the last underlying failure, which is `none` ("no data") when no
candidate raised and only empty results occurred. -/
theorem fallback_contract {ε α : Type} (fetch : String → Except ε (List α)) :
    (∀ (pre : List String) (c : String) (post : List String) (rows : List α),
      (∀ c' ∈ pre, failsOrEmpty fetch c' = true) →
      fetch c = .ok rows → rows ≠ [] →
      fetch_with_fallback fetch (pre ++ c :: post) = .ok rows) ∧
    (∀ cands : List String,
      (∀ c' ∈ cands, failsOrEmpty fetch c' = true) →
      fetch_with_fallback fetch cands = .error (lastError fetch cands)) ∧
    (∀ cands : List String,
      (∀ c' ∈ cands, failsOrEmpty fetch c' = true) →
      (∀ c' ∈ cands, ∀ e, fetch c' ≠ .error e) →
      fetch_with_fallback fetch cands = .error none) := by
  have hfirst : ∀ (pre : List String) (last : Option ε) (c : String)
      (post : List String) (rows : List α),
      (∀ c' ∈ pre, failsOrEmpty fetch c' = true) →
      fetch c = .ok rows → rows ≠ [] →
      fetchWithFallbackLoop fetch (pre ++ c :: post) last = .ok rows := by
    intro pre
    induction pre with
    | nil =>
      intro last c post rows _ hc hrows
      rw [List.nil_append, fetchWithFallbackLoop]
      simp only [hc]
      rw [if_neg (by simpa using hrows)]
    | cons p pre' ih =>
      intro last c post rows hall hc hrows
      have hp := hall p (by simp)
      rw [List.cons_append, fetchWithFallbackLoop]
      unfold failsOrEmpty at hp
      cases hfp : fetch p with
      | ok rows' =>
        rw [hfp] at hp
        simp only [hfp]
        rw [if_pos hp]
        exact ih last c post rows (fun c' hc' => hall c' (by simp [hc'])) hc hrows
      | error e =>
        simp only [hfp]
        exact ih (some e) c post rows (fun c' hc' => hall c' (by simp [hc'])) hc hrows
  refine ⟨fun pre c post rows hall hc hrows =>
      hfirst pre none c post rows hall hc hrows,
    fun cands hall => ?_, fun cands hall hnoerr => ?_⟩
  · rw [fetch_with_fallback, fetchWithFallbackLoop_all_fail fetch cands none hall,
      lastError]
    rw [Option.or_none]
  · rw [fetch_with_fallback, fetchWithFallbackLoop_all_fail fetch cands none hall]
    have hnil : cands.filterMap (errOf fetch) = [] := by
      apply List.filterMap_eq_nil_iff.mpr
      intro c' hc'
      unfold errOf
      cases hfc : fetch c' with
      | ok rows => rfl
      | error e => exact absurd hfc (hnoerr c' hc' e)
    rw [hnil]
    rfl

/-- Witness for `fallback_contract`: candidate "a" raises, candidate "b"
returns zero rows, candidate "c" returns one row — the fallback returns
candidate "c"'s rows. -/
theorem fallback_contract_witness :
    fetch_with_fallback
      (fun c => if c = "a" then Except.error 7
        else if c = "b" then Except.ok ([] : List Nat)
        else Except.ok [5])
      ["a", "b", "c"] = Except.ok [5] :=
  (fallback_contract _).1 ["a", "b"] "c" [] [5] (by decide) rfl (by decide)

/-! ## The Feature Engine (`feature_engineering.py`)

`main` parses months, sorts by `["I_COMMODITY", "MONTH"]`, groups by
`I_COMMODITY` (pandas iterates groups in sorted key order, each group in
frame order, and `group_keys=False` reassembles them by concatenation), and
applies `compute_group` per group.

Float caveats, modelled exactly: a `pct_change` whose reference value is `0`
produces a non-finite float (`inf`/`NaN`), modelled as missing; `rolling.std`
is the sample standard deviation (`ddof=1`), `NaN` on a one-element window
and then `fillna(0.0)`; the `weight_zscore_6` guard `weight_roll6_std == 0`
is decided in exact arithmetic (the std is zero iff the window is a
singleton or its sample variance is zero — see `rollStd_eq_zero_iff`). -/

/-- `series.pct_change(k)` at position `i` of a never-missing series:
missing for the first `k` positions; a zero reference value yields a
non-finite float, modelled as missing. -/
def pctChangeAt (ws : List ℚ) (i k : Nat) : Option ℚ :=
  if k ≤ i then
    if ws.getD (i - k) 0 = 0 then none
    else some ((ws.getD i 0 - ws.getD (i - k) 0) / ws.getD (i - k) 0)
  else none

/-- `series.pct_change(1)` at position `i` of a possibly-missing series
(`unit_value_per_kg`): missing when either endpoint is missing. -/
def optPctChangeAt (vs : List (Option ℚ)) (i : Nat) : Option ℚ :=
  if 1 ≤ i then
    match vs.getD (i - 1) none, vs.getD i none with
    | some a, some b => if a = 0 then none else some ((b - a) / a)
    | _, _ => none
  else none

/-- `series - series.shift(1)` at position `i` (`air_share_mom_delta`). -/
def deltaAt (vs : List (Option ℚ)) (i : Nat) : Option ℚ :=
  if 1 ≤ i then
    match vs.getD (i - 1) none, vs.getD i none with
    | some a, some b => some (b - a)
    | _, _ => none
  else none

/-- The window `rolling(window=n, min_periods=1)` sees at position `i`: the
last `min n (i+1)` elements up to and including index `i`. -/
def trailingWindow (n : Nat) (xs : List ℚ) (i : Nat) : List ℚ :=
  (xs.take (i + 1)).drop (i + 1 - n)

def listMean (w : List ℚ) : ℚ := w.sum / w.length

/-- Sample variance (`ddof=1`, the pandas default for `rolling.std`). -/
def sampleVar (w : List ℚ) : ℚ :=
  ((w.map (fun x => (x - listMean w) ^ 2)).sum) / ((w.length : ℚ) - 1)

/-- `rolling(n, min_periods=1).mean()` at position `i`. -/
def rollAvg (n : Nat) (xs : List ℚ) (i : Nat) : ℚ :=
  listMean (trailingWindow n xs i)

/-- `rolling(n, min_periods=1).std().fillna(0.0)` at position `i`: sample
standard deviation; a one-element window gives `NaN`, filled with `0`. -/
noncomputable def rollStd (n : Nat) (xs : List ℚ) (i : Nat) : ℝ :=
  if (trailingWindow n xs i).length ≤ 1 then 0
  else Real.sqrt (sampleVar (trailingWindow n xs i))

/-- The `weight_roll6_std == 0` test of the `weight_zscore_6` guard, decided
in exact arithmetic. -/
def rollStdIsZero (n : Nat) (xs : List ℚ) (i : Nat) : Bool :=
  decide ((trailingWindow n xs i).length ≤ 1 ∨
    sampleVar (trailingWindow n xs i) = 0)

theorem sampleVar_nonneg {w : List ℚ} (h2 : 2 ≤ w.length) : 0 ≤ sampleVar w := by
  unfold sampleVar
  apply div_nonneg
  · apply List.sum_nonneg
    intro x hx
    rcases List.mem_map.mp hx with ⟨y, _, rfl⟩
    exact sq_nonneg _
  · have hc : (2 : ℚ) ≤ (w.length : ℚ) := by exact_mod_cast h2
    linarith

theorem sampleVar_const {w : List ℚ} {q : ℚ} (hall : ∀ x ∈ w, x = q) :
    sampleVar w = 0 := by
  unfold sampleVar
  rw [List.sum_eq_zero, zero_div]
  intro x hx
  rcases List.mem_map.mp hx with ⟨y, hy, rfl⟩
  have hw : w.length ≠ 0 := by
    intro h0
    rw [List.length_eq_zero] at h0
    subst h0
    exact absurd hy (List.not_mem_nil y)
  have hne : (w.length : ℚ) ≠ 0 := Nat.cast_ne_zero.mpr hw
  have hmean : listMean w = q := by
    unfold listMean
    rw [List.sum_eq_card_nsmul w q hall, nsmul_eq_mul, mul_div_cancel_left₀ _ hne]
  rw [hall y hy, hmean, sub_self]
  exact zero_pow two_ne_zero

/-- The exact-arithmetic zero test agrees with `weight_roll6_std == 0`. -/
theorem rollStd_eq_zero_iff (n : Nat) (xs : List ℚ) (i : Nat) :
    rollStd n xs i = 0 ↔ rollStdIsZero n xs i = true := by
  unfold rollStd rollStdIsZero
  by_cases hlen : (trailingWindow n xs i).length ≤ 1
  · simp [hlen]
  · rw [if_neg hlen]
    have h2 : 2 ≤ (trailingWindow n xs i).length := by omega
    have hnn : (0 : ℝ) ≤ ((sampleVar (trailingWindow n xs i) : ℚ) : ℝ) := by
      exact_mod_cast sampleVar_nonneg h2
    rw [Real.sqrt_eq_zero hnn]
    simp [hlen]

/-- One row of the feature table: the input columns plus every derived
feature column, in the output order of `feature_engineering.py`. -/
structure FeatRow where
  commodity : Nat
  desc : Nat
  genVal : Option ℚ
  vesWgt : Option ℚ
  cntWgt : Option ℚ
  airWgt : Option ℚ
  month : Nat
  total_weight : ℚ
  air_share : Option ℚ
  container_ratio : Option ℚ
  unit_value_per_kg : Option ℚ
  weight_mom_pct : Option ℚ
  weight_yoy_pct : Option ℚ
  unit_value_mom_pct : Option ℚ
  air_share_mom_delta : Option ℚ
  weight_roll3_avg : ℚ
  weight_roll6_avg : ℚ
  weight_roll3_std : ℝ
  weight_roll6_std : ℝ
  weight_zscore_6 : ℝ

/-- The columns `compute_group` assigns to row `i` of the (month-sorted)
group `g`. -/
noncomputable def mkFeat (g : List Row) (i : Nat) (r : Row) : FeatRow :=
  { commodity := r.commodity, desc := r.desc, genVal := r.genVal,
    vesWgt := r.vesWgt, cntWgt := r.cntWgt, airWgt := r.airWgt,
    month := r.month,
    total_weight := totalWeight r,
    air_share := airShare r,
    container_ratio := containerRatio r,
    unit_value_per_kg := unitValuePerKg r,
    weight_mom_pct := pctChangeAt (g.map totalWeight) i 1,
    weight_yoy_pct := pctChangeAt (g.map totalWeight) i 12,
    unit_value_mom_pct := optPctChangeAt (g.map unitValuePerKg) i,
    air_share_mom_delta := deltaAt (g.map airShare) i,
    weight_roll3_avg := rollAvg 3 (g.map totalWeight) i,
    weight_roll6_avg := rollAvg 6 (g.map totalWeight) i,
    weight_roll3_std := rollStd 3 (g.map totalWeight) i,
    weight_roll6_std := rollStd 6 (g.map totalWeight) i,
    weight_zscore_6 :=
      if rollStdIsZero 6 (g.map totalWeight) i then 0
      else ((totalWeight r - rollAvg 6 (g.map totalWeight) i : ℚ) : ℝ) /
        rollStd 6 (g.map totalWeight) i }

/-- `compute_group` applied to one commodity's month-sorted rows. -/
noncomputable def compute_group (g : List Row) : List FeatRow :=
  g.mapIdx (fun i r => mkFeat g i r)

theorem compute_group_length (g : List Row) :
    (compute_group g).length = g.length := by
  unfold compute_group
  rw [List.length_mapIdx]

theorem compute_group_getElem (g : List Row) (i : Nat) (h : i < g.length)
    (h' : i < (compute_group g).length) :
    (compute_group g)[i] = mkFeat g i g[i] := by
  unfold compute_group at *
  rw [List.getElem_mapIdx]

/-- **C6.** `weight_roll{3,6}_avg` / `weight_roll{3,6}_std` at each position
of a commodity series are the mean and (sample) standard deviation of total
weight over the trailing window of the last 3 / 6 periods including the
current one, using however many periods exist at the series start (minimum
window size 1); the std of a single-element or zero-variance window is
exactly `0`. -/
theorem rolling_window_semantics (g : List Row) (i : Nat) (h : i < g.length) :
    ((compute_group g).map FeatRow.weight_roll3_avg)[i]? =
        some (rollAvg 3 (g.map totalWeight) i) ∧
    ((compute_group g).map FeatRow.weight_roll6_avg)[i]? =
        some (rollAvg 6 (g.map totalWeight) i) ∧
    ((compute_group g).map FeatRow.weight_roll3_std)[i]? =
        some (rollStd 3 (g.map totalWeight) i) ∧
    ((compute_group g).map FeatRow.weight_roll6_std)[i]? =
        some (rollStd 6 (g.map totalWeight) i) ∧
    (∀ n, 1 ≤ n →
      trailingWindow n (g.map totalWeight) i =
        (List.range (min n (i + 1))).map
          (fun t => (g.map totalWeight).getD (i + 1 - min n (i + 1) + t) 0) ∧
      (trailingWindow n (g.map totalWeight) i).length = min n (i + 1) ∧
      rollAvg n (g.map totalWeight) i =
        (trailingWindow n (g.map totalWeight) i).sum / ((min n (i + 1) : Nat) : ℚ) ∧
      (min n (i + 1) = 1 → rollStd n (g.map totalWeight) i = 0) ∧
      (∀ q : ℚ, (∀ x ∈ trailingWindow n (g.map totalWeight) i, x = q) →
        rollStd n (g.map totalWeight) i = 0) ∧
      (2 ≤ min n (i + 1) →
        0 ≤ rollStd n (g.map totalWeight) i ∧
        (rollStd n (g.map totalWeight) i) ^ 2 =
          ((sampleVar (trailingWindow n (g.map totalWeight) i) : ℚ) : ℝ))) := by
  have hws : i < (g.map totalWeight).length := by
    rw [List.length_map]; exact h
  have hanchor : ∀ (proj : FeatRow → ℚ) (v : ℚ),
      (proj (mkFeat g i g[i]) = v) →
      ((compute_group g).map proj)[i]? = some v := by
    intro proj v hv
    have hlt : i < ((compute_group g).map proj).length := by
      rw [List.length_map, compute_group_length]; exact h
    rw [List.getElem?_eq_getElem hlt, List.getElem_map,
      compute_group_getElem g i h, hv]
  have hanchorR : ∀ (proj : FeatRow → ℝ) (v : ℝ),
      (proj (mkFeat g i g[i]) = v) →
      ((compute_group g).map proj)[i]? = some v := by
    intro proj v hv
    have hlt : i < ((compute_group g).map proj).length := by
      rw [List.length_map, compute_group_length]; exact h
    rw [List.getElem?_eq_getElem hlt, List.getElem_map,
      compute_group_getElem g i h, hv]
  refine ⟨hanchor _ _ rfl, hanchor _ _ rfl, hanchorR _ _ rfl, hanchorR _ _ rfl,
    fun n hn => ?_⟩
  have hlen : (trailingWindow n (g.map totalWeight) i).length = min n (i + 1) := by
    unfold trailingWindow
    rw [List.length_drop, List.length_take]
    omega
  have hwin : trailingWindow n (g.map totalWeight) i =
      (List.range (min n (i + 1))).map
        (fun t => (g.map totalWeight).getD (i + 1 - min n (i + 1) + t) 0) := by
    apply List.ext_getElem
    · rw [hlen, List.length_map, List.length_range]
    · intro t h1 h2
      rw [List.getElem_map, List.getElem_range]
      have hb : i + 1 - min n (i + 1) + t < (g.map totalWeight).length := by
        rw [hlen] at h1
        omega
      rw [List.getD_eq_getElem _ 0 hb]
      unfold trailingWindow
      rw [List.getElem_drop, List.getElem_take]
      have hidx : i + 1 - n + t = i + 1 - min n (i + 1) + t := by omega
      simp only [hidx]
  refine ⟨hwin, hlen, ?_, ?_, ?_, ?_⟩
  · unfold rollAvg listMean
    rw [hlen]
  · intro h1
    unfold rollStd
    rw [if_pos (by omega)]
  · intro q hall
    unfold rollStd
    by_cases hle : (trailingWindow n (g.map totalWeight) i).length ≤ 1
    · rw [if_pos hle]
    · rw [if_neg hle, sampleVar_const hall]
      exact_mod_cast Real.sqrt_zero
  · intro h2
    unfold rollStd
    rw [if_neg (by omega)]
    have hnn : (0 : ℝ) ≤ ((sampleVar (trailingWindow n (g.map totalWeight) i) : ℚ) : ℝ) := by
      exact_mod_cast sampleVar_nonneg (by omega)
    exact ⟨Real.sqrt_nonneg _, Real.sq_sqrt hnn⟩

/-- Witness for `rolling_window_semantics`: a two-row group at position 1 —
the window holds both periods. -/
theorem rolling_window_semantics_witness :
    (trailingWindow 3 ([⟨1, 0, some 100, some 10, some 9, some 1, 1⟩,
        ⟨1, 0, some 200, some 20, some 18, some 2, 2⟩].map totalWeight) 1).length =
      min 3 (1 + 1) :=
  ((rolling_window_semantics
      [⟨1, 0, some 100, some 10, some 9, some 1, 1⟩,
       ⟨1, 0, some 200, some 20, some 18, some 2, 2⟩] 1 (by decide)).2.2.2.2 3
    (by decide)).2.1

/-- Sort key of `df.sort_values(["I_COMMODITY", "MONTH"])`: lexicographic
on (commodity, month). -/
def commodityMonthKey (r : Row) : Nat ×ₗ Nat := toLex (r.commodity, r.month)

/-- The driver of `main`: sort by commodity then month, group by
`I_COMMODITY` — pandas iterates groups in sorted key order, each group
keeping frame order, and `group_keys=False` reassembles by concatenation —
and apply `compute_group` to each group. -/
noncomputable def featureTable (rows : List Row) : List FeatRow :=
  (((rows.map Row.commodity).toFinset).sort (· ≤ ·)).flatMap
    (fun c => compute_group
      ((sortByKey commodityMonthKey rows).filter (fun r => r.commodity = c)))

theorem filter_flatMap {β γ : Type} (L : List β) (f : β → List γ) (q : γ → Bool) :
    (L.flatMap f).filter q = L.flatMap (fun a => (f a).filter q) := by
  induction L with
  | nil => rfl
  | cons a L ih =>
    rw [List.flatMap_cons, List.flatMap_cons, List.filter_append, ih]

theorem flatMap_eq_single {β : Type} {L : List Nat} (f : Nat → List β) (c : Nat)
    (hnd : L.Nodup) (h : ∀ c' ∈ L, c' ≠ c → f c' = []) :
    L.flatMap f = if c ∈ L then f c else [] := by
  induction L with
  | nil => rfl
  | cons a L ih =>
    rcases List.nodup_cons.mp hnd with ⟨ha, hL⟩
    rw [List.flatMap_cons]
    by_cases hac : a = c
    · subst hac
      have hnil : L.flatMap f = [] := by
        apply List.flatMap_eq_nil_iff.mpr
        intro x hx
        exact h x (by simp [hx]) (fun hxc => ha (hxc ▸ hx))
      rw [hnil, List.append_nil, if_pos (by simp)]
    · rw [h a (by simp) hac, List.nil_append,
        ih hL (fun c' hc' => h c' (by simp [hc']))]
      by_cases hcL : c ∈ L
      · rw [if_pos hcL, if_pos (List.mem_cons.mpr (Or.inr hcL))]
      · have hnc : c ∉ a :: L := by
          intro hcm
          rcases List.mem_cons.mp hcm with rfl | hc'
          · exact hac rfl
          · exact hcL hc'
        rw [if_neg hcL, if_neg hnc]

theorem compute_group_commodity {g : List Row} {c : Nat}
    (hall : ∀ r ∈ g, r.commodity = c) :
    ∀ fr ∈ compute_group g, fr.commodity = c := by
  intro fr hfr
  unfold compute_group at hfr
  rw [List.mapIdx_eq_enum_map] at hfr
  rcases List.mem_map.mp hfr with ⟨⟨j, r⟩, hjr, rfl⟩
  have hr : r ∈ g := by
    have hmem : r ∈ (g.enum.map Prod.snd) := List.mem_map.mpr ⟨(j, r), hjr, rfl⟩
    rwa [List.enum_map_snd] at hmem
  exact hall r hr

/-- Extraction: the commodity-`c` slice of the feature table is exactly
`compute_group` of commodity `c`'s rows of the lexicographically sorted
frame (empty when `c` is absent). -/
theorem featureTable_filter (rows : List Row) (c : Nat) :
    (featureTable rows).filter (fun fr => fr.commodity = c) =
      if c ∈ rows.map Row.commodity then
        compute_group ((sortByKey commodityMonthKey rows).filter
          (fun r => r.commodity = c))
      else [] := by
  have hgroups : ∀ c' : Nat, c' ≠ c →
      (compute_group ((sortByKey commodityMonthKey rows).filter
        (fun r => r.commodity = c'))).filter (fun fr => fr.commodity = c) = [] := by
    intro c' hne
    apply List.filter_eq_nil_iff.mpr
    intro fr hfr
    have hall : ∀ r ∈ (sortByKey commodityMonthKey rows).filter
        (fun r => r.commodity = c'), r.commodity = c' := fun r hr =>
      of_decide_eq_true (List.mem_filter.mp hr).2
    have hcom := compute_group_commodity hall fr hfr
    simp [hcom, hne]
  have hself : (compute_group ((sortByKey commodityMonthKey rows).filter
      (fun r => r.commodity = c))).filter (fun fr => fr.commodity = c) =
      compute_group ((sortByKey commodityMonthKey rows).filter
        (fun r => r.commodity = c)) := by
    apply List.filter_eq_self.mpr
    intro fr hfr
    have hall : ∀ r ∈ (sortByKey commodityMonthKey rows).filter
        (fun r => r.commodity = c), r.commodity = c := fun r hr =>
      of_decide_eq_true (List.mem_filter.mp hr).2
    simp [compute_group_commodity hall fr hfr]
  unfold featureTable
  rw [filter_flatMap,
    flatMap_eq_single _ c (Finset.sort_nodup _ _)
      (fun c' _ hne => hgroups c' hne)]
  have hmem : (c ∈ ((rows.map Row.commodity).toFinset).sort (· ≤ ·)) ↔
      c ∈ rows.map Row.commodity := by
    rw [Finset.mem_sort, List.mem_toFinset]
  by_cases hc : c ∈ rows.map Row.commodity
  · rw [if_pos (hmem.mpr hc), if_pos hc, hself]
  · rw [if_neg (fun hx => hc (hmem.mp hx)), if_neg hc]

/-- **C9.** The features computed for one commodity's rows are identical
whether or not rows of any other commodity are present: rolling/lag
computations for commodity `c` never read a row of another commodity, even
when chronologically interleaved. Any two canonical tables agreeing on their
commodity-`c` rows (in order) produce identical commodity-`c` feature
rows. -/
theorem commodity_noninterference (rows1 rows2 : List Row) (c : Nat)
    (h : rows1.filter (fun r => r.commodity = c) =
      rows2.filter (fun r => r.commodity = c)) :
    (featureTable rows1).filter (fun fr => fr.commodity = c) =
      (featureTable rows2).filter (fun fr => fr.commodity = c) := by
  have hsort : (sortByKey commodityMonthKey rows1).filter
      (fun r => r.commodity = c) =
      (sortByKey commodityMonthKey rows2).filter (fun r => r.commodity = c) := by
    rw [filter_sortByKey, filter_sortByKey, h]
  have haux : ∀ (l1 l2 : List Row),
      l1.filter (fun r => r.commodity = c) = l2.filter (fun r => r.commodity = c) →
      c ∈ l1.map Row.commodity → c ∈ l2.map Row.commodity := by
    intro l1 l2 heq hc
    rcases List.mem_map.mp hc with ⟨r, hr, hrc⟩
    have hmem : r ∈ l1.filter (fun r => r.commodity = c) :=
      List.mem_filter.mpr ⟨hr, by simp [hrc]⟩
    rw [heq] at hmem
    rcases List.mem_filter.mp hmem with ⟨hr2, _⟩
    exact List.mem_map.mpr ⟨r, hr2, hrc⟩
  rw [featureTable_filter, featureTable_filter, hsort]
  by_cases hc : c ∈ rows1.map Row.commodity
  · rw [if_pos hc, if_pos (haux _ _ h hc)]
  · rw [if_neg hc, if_neg (fun hx => hc (haux _ _ h.symm hx))]

/-- Witness for `commodity_noninterference`: commodity 2's row, chronologically
interleaved between commodity 1's two months, does not change commodity 1's
feature rows. -/
theorem commodity_noninterference_witness :
    (featureTable [⟨1, 0, some 1, none, none, some 11, 1⟩,
        ⟨2, 0, some 9, none, none, some 5, 2⟩,
        ⟨1, 0, some 2, none, none, some 22, 3⟩]).filter
      (fun fr => fr.commodity = 1) =
      (featureTable [⟨1, 0, some 1, none, none, some 11, 1⟩,
        ⟨1, 0, some 2, none, none, some 22, 3⟩]).filter
      (fun fr => fr.commodity = 1) :=
  commodity_noninterference _ _ 1 (by decide)

end SupplySight
